import Mathlib

/-!
# Verification of the uppyyl-state-constructor DBM reconstruction core

This file gives a shallow embedding, in Lean 4, of the parts of the
`uppyyl_state_constructor` Python package that the specification claims talk
about, together with theorems settling those claims.

Conventions of the embedding:
* Python `int` is `Int` (arbitrary precision in CPython, so no wrap-around);
  `sys.maxsize` is the 64-bit CPython constant `2^63 - 1`.
* Python lists are `List`; a Python `dict` (insertion ordered) is an
  association list `List (κ × ν)` where lookups search from the front after
  the last insertion wins (we update in place); a Python `set` of small
  integers is modelled as a duplicate-free `List` in insertion order (none of
  the proved statements depends on the iteration order of a set).
* Python exceptions (`KeyError`, `AttributeError`, `raise Exception`) are
  modelled with `Except PyErr`; code that cannot raise is written directly.
* `numpy.inf` matrix values are the `EnVal.inf` constructor.
-/

namespace UppyylStateConstructor

/-- Python exceptions that the embedded code can raise. -/
inductive PyErr where
  /-- `KeyError` raised by a failing `dict[key]` lookup (integer keys). -/
  | keyError (key : Nat)
  /-- `KeyError` raised by a failing `dict[key]` lookup (non-integer keys). -/
  | keyErrorOther
  /-- `IndexError` raised by an out-of-range list subscript. -/
  | indexError
  /-- `AttributeError` raised by accessing a non-existent attribute. -/
  | attributeError (attr : String)
  /-- A plain `raise Exception(msg)`. -/
  | exception (msg : String)
  deriving Repr, DecidableEq

/-! ## `rinast/dbm/db_value.py` — the `DBValue` bound domain -/

/-- CPython `sys.maxsize` on a 64-bit platform; the code uses it as the
infinity sentinel of the `DBValue` domain. -/
def maxsize : Int := 2 ^ 63 - 1

/-- `DBValue`: an integer value together with a comparator flag
(`bound = True` means less-equal / non-strict, `False` means strictly less). -/
structure DBValue where
  value : Int
  bound : Bool
  deriving Repr, DecidableEq

/-- The documented `DBValue` invariant: once the value is the infinity
sentinel, the comparator is strict (`bound = false`). -/
def DBValue.inv (v : DBValue) : Prop := v.value = maxsize → v.bound = false

instance (v : DBValue) : Decidable v.inv := by unfold DBValue.inv; infer_instance

/-- `DBValue.__init__` with explicit `value` / `bound` arguments:
`self.bound = False if value == sys.maxsize else bound`. -/
def DBValue.mk' (value : Int) (bound : Bool) : DBValue :=
  ⟨value, if value = maxsize then false else bound⟩

/-- `DBValue.set_value`: overwrite the value; force `bound = False` when the
new value is the sentinel. -/
def DBValue.setValue (v : DBValue) (value : Int) : DBValue :=
  { v with value := value, bound := if value = maxsize then false else v.bound }

/-- `DBValue.set_bound`: overwrite the comparator only when the value is not
the sentinel. -/
def DBValue.setBound (v : DBValue) (bound : Bool) : DBValue :=
  if v.value ≠ maxsize then { v with bound := bound } else v

/-- `DBValue.add`: returns a fresh value; once either operand holds the
sentinel the result is `(maxsize, False)`, otherwise values are added and the
comparator flags are conjoined. -/
def DBValue.add (v other : DBValue) : DBValue :=
  if v.value = maxsize ∨ other.value = maxsize then
    ⟨maxsize, false⟩
  else
    ⟨v.value + other.value, v.bound && other.bound⟩

/-- `DBValue.compare_to`: three-way comparison treating the sentinel as the
greatest element and a non-strict bound as larger than a strict one. -/
def DBValue.compareTo (v other : DBValue) : Int :=
  if v.value = other.value then
    if v.bound = other.bound then 0
    else if v.bound then 1 else -1
  else if v.value = maxsize then 1
  else if other.value = maxsize then -1
  else v.value - other.value

/-! ## The external operation model (`uppyyl_simulator` DBM operations)

The operation classes `Reset`, `Constraint`, `DelayFuture`, `Close` and the
class `DBMOperationSequence` live in the external `uppyyl_simulator`
collaborator package, not in this repository.  Modelled from the spec: the
Operation Model is the closed tagged variant
`Reset(clock,val) | Constraint(clock1?,clock2?,rel,val) | DelayFuture() |
Close()` whose sequences are plain lists with `append`/`+`/`reverse`; an
`unsupported` variant stands for an operation object of any other Python
class (possible because Python sequences are heterogeneous), which the
Rinast replay dispatch must reject. -/
inductive DBMOp where
  | reset (clock : String) (val : Int)
  | constraint (clock1 : Option String) (clock2 : Option String)
      (rel : String) (val : Int)
  | delayFuture
  | close
  | unsupported (desc : String)
  deriving Repr, DecidableEq

/-- Is the operation a `Constraint`? -/
def DBMOp.isConstraint : DBMOp → Bool
  | .constraint _ _ _ _ => true
  | _ => false

/-- Is the operation a `Close`? -/
def DBMOp.isClose : DBMOp → Bool
  | .close => true
  | _ => false

/-! ## The external DBM (zone) matrix type

The host DBM matrix type is an external collaborator (`uppyyl_simulator`).
Modelled from the spec: a square matrix of entries indexed by the clock list
(index 0 the reference clock), each entry a pair of a value in
`ℤ ∪ {+inf}` (`numpy.inf` in the code) and a relation string
(`"<"` or `"<="`); entry equality is structural and entry addition saturates
at infinity.  The constrainers under verification only read `matrix[i][j]`,
`.val`, `.rel`, `clocks`, entry `+` and entry `==`. -/
inductive EnVal where
  | inf
  | fin (v : Int)
  deriving Repr, DecidableEq

/-- Saturating addition of entry values (`numpy` float addition where one
operand may be `inf`). -/
def EnVal.add : EnVal → EnVal → EnVal
  | .inf, _ => .inf
  | _, .inf => .inf
  | .fin a, .fin b => .fin (a + b)

/-- One DBM matrix entry: a value and a relation string. -/
structure DBMEntry where
  val : EnVal
  rel : String
  deriving Repr, DecidableEq

/-- Entry used when an index is out of range; never reached on well-formed
matrices (Python would raise `IndexError` there). -/
def DBMEntry.default : DBMEntry := ⟨.fin 0, "<="⟩

/-- A DBM: the ordered clock-name list (index 0 the reference clock) and the
bound matrix. -/
structure Dbm where
  clocks : List String
  matrix : List (List DBMEntry)
  deriving Repr, DecidableEq

/-- Well-formedness: the matrix is square with one row/column per clock. -/
def Dbm.wf (d : Dbm) : Prop :=
  d.matrix.length = d.clocks.length ∧
    ∀ row ∈ d.matrix, row.length = d.clocks.length

/-- `dbm.matrix[i][j]` (total lookup; in-range on well-formed matrices). -/
def Dbm.entry (d : Dbm) (i j : Nat) : DBMEntry :=
  (d.matrix.getD i []).getD j DBMEntry.default

/-- `dbm.clocks[i]` (total lookup; in-range on well-formed matrices). -/
def Dbm.clock (d : Dbm) (i : Nat) : String :=
  d.clocks.getD i ""

/-! ## `oc/constrainer/helper.py` -/

/-- A clock paired with its index, as produced by
`zip(dbm.clocks, range(len(dbm.clocks)))`. -/
abbrev ClockRef := String × Nat

/-- Loop body condition of `get_zero_equivalence_classes`: the two-edge cycle
between the class representative and the candidate clock has weight sum 0. -/
def zeroCyclePair (d : Dbm) (firstIdx clockIdx : Nat) : Bool :=
  ((d.entry firstIdx clockIdx).val.add (d.entry clockIdx firstIdx).val)
    = .fin 0

/-- The `while remaining_clocks:` loop of `get_zero_equivalence_classes`:
take the first remaining clock, collect every remaining clock forming a
zero-weight two-edge cycle with it into one class, drop the class members
from the remaining list, repeat.  The loop consumes at least one clock per
iteration, so running it with fuel equal to the initial list length is the
exact loop (the zero-fuel case is unreachable: the fuel always dominates
the list length). -/
def zeroEqClassesLoop (d : Dbm) : Nat → List ClockRef → List (List ClockRef)
  | _, [] => []
  | 0, _ :: _ => []
  | fuel + 1, c :: rest =>
    let eq := c :: rest.filter (fun cr => zeroCyclePair d c.2 cr.2)
    eq :: zeroEqClassesLoop d fuel
      (rest.filter (fun cr => ! zeroCyclePair d c.2 cr.2))

/-- `get_zero_equivalence_classes(dbm)`. -/
def getZeroEquivalenceClasses (d : Dbm) : List (List ClockRef) :=
  zeroEqClassesLoop d d.clocks.length
    (d.clocks.zip (List.range d.clocks.length))

/-- `get_cycle(node_list)`: chain the nodes in order and close the cycle with
a back edge; empty for lists of at most one node. -/
def getCycle {α : Type} : List α → List (α × α)
  | [] => []
  | [_] => []
  | x :: y :: xs =>
    (x :: y :: xs).zip (y :: xs) ++ [((y :: xs).getLast (by simp), x)]

/-! ## `oc/constrainer/dbm_constrainer_via_fcs.py` -/

/-- The index pairs visited by the nested
`for i in range(len(dbm.matrix)): for j in range(len(dbm.matrix[0]))` loops,
in iteration order. -/
def matrixPairs (d : Dbm) : List (Nat × Nat) :=
  (List.range d.matrix.length).flatMap fun i =>
    (List.range (d.matrix.headD []).length).map fun j => (i, j)

/-- FCS loop body: emit one `Constraint` per off-diagonal entry whose value is
not `inf`. -/
def fcsEmit (d : Dbm) (p : Nat × Nat) : Option DBMOp :=
  if p.1 ≠ p.2 then
    match (d.entry p.1 p.2).val with
    | .inf => none
    | .fin v =>
      some (.constraint (some (d.clock p.1)) (some (d.clock p.2))
        (d.entry p.1 p.2).rel v)
  else none

/-- The constraint operations emitted by
`generate_constraint_sequence_via_fcs` (the function appends no `Close`). -/
def fcsConstraints (d : Dbm) : List DBMOp :=
  (matrixPairs d).filterMap (fcsEmit d)

/-- `generate_constraint_sequence_via_fcs(dbm)`. -/
def generateConstraintSequenceViaFcs (d : Dbm) : List DBMOp :=
  fcsConstraints d

/-- The `inf_entry_count` loops of the MCS/RCS generators: number of matrix
entries (diagonal included) whose value is `inf`. -/
def infEntryCount (d : Dbm) : Nat :=
  (matrixPairs d).countP fun p => (d.entry p.1 p.2).val = .inf

/-- The close-appending bound
`len(dbm.clocks) * (len(dbm.clocks) - 1) - inf_entry_count`, as a Python
integer (it can be negative). -/
def closeThreshold (d : Dbm) : Int :=
  (d.clocks.length : Int) * ((d.clocks.length : Int) - 1) - (infEntryCount d : Int)

/-! ## `oc/constrainer/dbm_constrainer_via_mcs.py` -/

/-- A directed edge between two indexed clocks. -/
abbrev ClockEdge := ClockRef × ClockRef

/-- Fallback clock reference for `eq[0]` on an empty class; equivalence
classes are always non-empty, so it is never reached (Python would raise
`IndexError`). -/
def ClockRef.default : ClockRef := ("", 0)

/-- MCS edge collection: one representative edge per ordered pair of distinct
equivalence classes, then one cycle per class. -/
def mcsEdges (d : Dbm) : List ClockEdge :=
  let eqs := getZeroEquivalenceClasses d
  ((List.range eqs.length).flatMap fun i =>
    (List.range eqs.length).filterMap fun j =>
      if i = j then none
      else some ((eqs.getD i []).headD ClockRef.default,
        (eqs.getD j []).headD ClockRef.default)) ++
  eqs.flatMap getCycle

/-- Edge-to-operation emission shared by MCS and RCS: look the edge's entry up
by index, skip `inf` entries. -/
def edgeEmit (d : Dbm) (e : ClockEdge) : Option DBMOp :=
  match (d.entry e.1.2 e.2.2).val with
  | .inf => none
  | .fin v =>
    some (.constraint (some (d.clock e.1.2)) (some (d.clock e.2.2))
      (d.entry e.1.2 e.2.2).rel v)

/-- The constraint operations emitted by
`generate_constraint_sequence_via_mcs` before the close check. -/
def mcsConstraints (d : Dbm) : List DBMOp :=
  (mcsEdges d).filterMap (edgeEmit d)

/-- `generate_constraint_sequence_via_mcs(dbm)`. -/
def generateConstraintSequenceViaMcs (d : Dbm) : List DBMOp :=
  let opSeq := mcsConstraints d
  opSeq ++ if (opSeq.length : Int) < closeThreshold d then [.close] else []

/-! ## `oc/constrainer/dbm_constrainer_via_rcs.py` -/

/-- `clock_bound_for_all_permutations` (module constant; not read by the live
code path). -/
def clockBoundForAllPermutations : Nat := 8

/-- `node_bound_for_all_permutations`: the largest equivalence-class size for
which all intra-class cycle permutations are searched. -/
def nodeBoundForAllPermutations : Nat := 5

/-- The fixed edges: off-diagonal index pairs (over the target matrix ranges)
on which source and target matrix entries are structurally equal. -/
def rcsFixedEdges (src tgt : Dbm) : List ClockEdge :=
  (matrixPairs tgt).filterMap fun p =>
    if p.1 ≠ p.2 ∧ src.entry p.1 p.2 = tgt.entry p.1 p.2 then
      some ((tgt.clock p.1, p.1), (tgt.clock p.2, p.2))
    else none

/-- RCS inter-class edge collection: per ordered pair of distinct classes,
reuse the first fixed edge from the first class into the second if one
exists, otherwise add the representative edge as non-fixed.  Returns the
`(fixed, nonfixed)` edge lists. -/
def rcsInterEdges (fe : List ClockEdge) (eqs : List (List ClockRef)) :
    List ClockEdge × List ClockEdge :=
  (List.range eqs.length).foldl (fun acc i =>
    let eqi := eqs.getD i []
    let fei := fe.filter fun e => eqi.contains e.1
    (List.range eqs.length).foldl (fun acc j =>
      if i = j then acc
      else
        let eqj := eqs.getD j []
        match fei.filter (fun e => eqj.contains e.2) with
        | e :: _ => (acc.1 ++ [e], acc.2)
        | [] =>
          (acc.1, acc.2 ++ [(eqi.headD ClockRef.default,
            eqj.headD ClockRef.default)])) acc) ([], [])

/-- All ways of picking one element out of a list, each paired with the list
of the remaining elements in order. -/
def selections {α : Type} : List α → List (α × List α)
  | [] => []
  | x :: xs => (x, xs) :: (selections xs).map fun p => (p.1, x :: p.2)

theorem selections_length {α : Type} {l : List α} :
    ∀ p ∈ selections l, p.2.length + 1 = l.length := by
  induction l with
  | nil => simp [selections]
  | cons x xs ih =>
    intro p hp
    simp only [selections, List.mem_cons, List.mem_map] at hp
    rcases hp with rfl | ⟨q, hq, rfl⟩
    · simp
    · simpa using ih q hq

/-- `itertools.permutations(lst)`: all permutations, in the lexicographic
order of the chosen index sequences.  Each selection removes one element, so
fuel equal to the list length runs the full recursion (the zero-fuel case
with a non-empty list is unreachable). -/
def pyPermsF {α : Type} : Nat → List α → List (List α)
  | _, [] => [[]]
  | 0, _ :: _ => []
  | fuel + 1, x :: xs =>
    (selections (x :: xs)).flatMap fun p =>
      (pyPermsF fuel p.2).map (p.1 :: ·)

/-- `itertools.permutations(lst)` at its natural fuel. -/
def pyPerms {α : Type} (l : List α) : List (List α) :=
  pyPermsF l.length l

/-- RCS intra-class candidate permutations: all of them for classes of at
most `node_bound_for_all_permutations` members, a single oracle-supplied one
otherwise.  The oracle models `np.random.permutation`. -/
def rcsIntraCandidates (oracle : List ClockRef → List ClockRef)
    (eq : List ClockRef) : List (List ClockRef) :=
  if eq.length ≤ nodeBoundForAllPermutations then pyPerms eq
  else [oracle eq]

/-- Split the cycle over one candidate permutation into its fixed and
non-fixed edges, preserving cycle order in both buckets. -/
def cycleSplit (fe : List ClockEdge) (perm : List ClockRef) :
    List ClockEdge × List ClockEdge :=
  (getCycle perm).partition fun e => fe.contains e

/-- The `max_fixed_count` loop over one class: keep the first candidate cycle
attaining the maximal number of fixed edges (`max_fixed_count` starts at
`-1`, updates on strict increase).  The `none` second component is
`max_fixed_cycle_edges = None`, never surviving a non-empty candidate
list (Python would raise `TypeError` on `None["fixed"]`). -/
def rcsCycleFoldStep (fe : List ClockEdge)
    (acc : Int × Option (List ClockEdge × List ClockEdge))
    (perm : List ClockRef) :
    Int × Option (List ClockEdge × List ClockEdge) :=
  let ce := cycleSplit fe perm
  if (ce.1.length : Int) > acc.1 then ((ce.1.length : Int), some ce) else acc

def rcsCycleFold (fe : List ClockEdge) (candidates : List (List ClockRef)) :
    Int × Option (List ClockEdge × List ClockEdge) :=
  candidates.foldl (rcsCycleFoldStep fe) (-1, none)

/-- The chosen intra-class cycle of one equivalence class, split into fixed
and non-fixed edges. -/
def rcsChooseCycle (fe : List ClockEdge)
    (oracle : List ClockRef → List ClockRef) (eq : List ClockRef) :
    List ClockEdge × List ClockEdge :=
  (rcsCycleFold fe (rcsIntraCandidates oracle eq)).2.getD ([], [])

/-- All RCS edges: inter-class representatives first, then the chosen
intra-class cycles, each split into `(fixed, nonfixed)`. -/
def rcsEdges (src tgt : Dbm) (oracle : List ClockRef → List ClockRef) :
    List ClockEdge × List ClockEdge :=
  let fe := rcsFixedEdges src tgt
  let eqs := getZeroEquivalenceClasses tgt
  eqs.foldl (fun acc eq =>
      let ch := rcsChooseCycle fe oracle eq
      (acc.1 ++ ch.1, acc.2 ++ ch.2))
    (rcsInterEdges fe eqs)

/-- The constraint operations emitted by
`generate_constraint_sequence_via_rcs` before the close check (only
non-fixed edges are emitted). -/
def rcsConstraints (src tgt : Dbm)
    (oracle : List ClockRef → List ClockRef) : List DBMOp :=
  (rcsEdges src tgt oracle).2.filterMap (edgeEmit tgt)

/-- `generate_constraint_sequence_via_rcs(dbm_source, dbm_target)`. -/
def generateConstraintSequenceViaRcs (src tgt : Dbm)
    (oracle : List ClockRef → List ClockRef) : List DBMOp :=
  let opSeq := rcsConstraints src tgt oracle
  opSeq ++ if (opSeq.length : Int) < closeThreshold tgt then [.close] else []

/-! ## `oc/approximator/dbm_approximator_via_seq.py` -/

/-- The reverse scan loop of `update_approximation_sequence_via_seq`:
arguments are the remaining (already reversed) operations, the collected
list, the clocks whose reset was already kept, and the `df_added` flag.  The
loop keeps the first `DelayFuture` since the last kept reset (or since the
start), keeps the first reset per clock, and breaks as soon as the number of
captured clocks equals the number of system clocks.  `approxStep` is the
loop body acting on the `(reduced_sequence, reset_clocks, df_added)` state,
`approxScan` the loop with its break check. -/
def approxStep (reduced : List DBMOp) (resetClocks : List String)
    (dfAdded : Bool) : DBMOp → List DBMOp × List String × Bool
  | .delayFuture =>
    if !dfAdded then (reduced ++ [.delayFuture], resetClocks, true)
    else (reduced, resetClocks, dfAdded)
  | .reset c v =>
    if !(resetClocks.contains c) then
      (reduced ++ [.reset c v], resetClocks ++ [c], false)
    else (reduced, resetClocks, dfAdded)
  | _ => (reduced, resetClocks, dfAdded)

def approxScan (clocks : List String) :
    List DBMOp → List DBMOp → List String → Bool → List DBMOp
  | [], reduced, _, _ => reduced
  | op :: rest, reduced, resetClocks, dfAdded =>
    let st := approxStep reduced resetClocks dfAdded op
    if st.2.1.length = clocks.length then st.1
    else approxScan clocks rest st.1 st.2.1 st.2.2

/-- `update_approximation_sequence_via_seq(seq_approx, seq, clocks)`. -/
def updateApproximationSequenceViaSeq (seqApprox seq : List DBMOp)
    (clocks : List String) : List DBMOp :=
  (approxScan clocks (seqApprox ++ seq).reverse [] [] false).reverse

/-- `generate_approximation_sequence_via_seq(seq, clocks)`. -/
def generateApproximationSequenceViaSeq (seq : List DBMOp)
    (clocks : List String) : List DBMOp :=
  updateApproximationSequenceViaSeq [] seq clocks

/-! ## `oc/dbm_constructor_oc.py` — the OC orchestrator

The orchestrator is glue over one approximator and one constrainer; we embed
it generically over the zone type `D` of the external DBM collaborator, its
pure `sequence.apply(dbm.copy())` function, and the strategy methods
(`generate_sequence` / `update_sequence`) selected by `set_strategies`. -/

/-- The `data_for_rec` dictionary handed through the OC pipeline. -/
structure RecData (D : Type) where
  dbmInit : Option D
  dbmTarget : Option D
  seqFull : Option (List DBMOp)
  seqIncr : List DBMOp

/-- The result dictionary of `time_measured_reconstruction` (the wall-clock
`measures` entries are not modelled). -/
structure RecResult (D : Type) where
  dbmRec : D
  seqRec : List DBMOp
  seqApprox : List DBMOp
  seqConstr : List DBMOp
  deriving Repr, DecidableEq

/-- `DBMReconstructorOC.time_measured_approximation` (timing stripped):
fail on a missing source DBM, run the selected approximator
(`update_sequence` in on-the-fly mode, `generate_sequence` otherwise), apply
the resulting sequence to a copy of the source DBM. -/
def timeMeasuredApproximation {D : Type} (applySeq : List DBMOp → D → D)
    (approxGen approxUpd : RecData D → Except PyErr (List DBMOp))
    (onTheFly : Bool) (data : RecData D) :
    Except PyErr (D × List DBMOp) :=
  match data.dbmInit with
  | none => .error (.exception "")
  | some d0 => do
    let call := if onTheFly then approxUpd data else approxGen data
    let seqApprox ← call
    pure (applySeq seqApprox d0, seqApprox)

/-- `DBMReconstructorOC.time_measured_constraint` (timing stripped; the
RCS-only write of `constrainer.dbm_source` is a store the constrainer never
reads and is not modelled). -/
def timeMeasuredConstraint {D : Type} (applySeq : List DBMOp → D → D)
    (constrGen constrUpd : RecData D → Except PyErr (List DBMOp))
    (onTheFly : Bool) (data : RecData D) :
    Except PyErr (D × List DBMOp) :=
  match data.dbmInit with
  | none => .error (.exception "")
  | some d0 => do
    let call := if onTheFly then constrUpd data else constrGen data
    let seqConstr ← call
    pure (applySeq seqConstr d0, seqConstr)

/-- `DBMReconstructorOC.time_measured_reconstruction`: approximation first,
then constraining against the data record whose `dbm_init` entry has been
replaced by the approximated DBM, then concatenation of both sequences. -/
def timeMeasuredReconstruction {D : Type} (applySeq : List DBMOp → D → D)
    (approxGen approxUpd constrGen constrUpd :
      RecData D → Except PyErr (List DBMOp))
    (onTheFly : Bool) (data : RecData D) :
    Except PyErr (RecResult D) :=
  match data.dbmInit with
  | none => .error (.exception "")
  | some _ => do
    let approxData ←
      timeMeasuredApproximation applySeq approxGen approxUpd onTheFly data
    let dataConstr := { data with dbmInit := some approxData.1 }
    let constrData ←
      timeMeasuredConstraint applySeq constrGen constrUpd onTheFly dataConstr
    pure ⟨constrData.1, approxData.2 ++ constrData.2, approxData.2,
      constrData.2⟩

/-! ## The four `update_sequence` stubs (on-the-fly mode)

Each object's relevant runtime state is its stored sequence
(`self.seq_approx` / `self.seq_constr`); the methods below model the
object state as that list and return the post-call state alongside the
call's outcome.  All four bodies are a single unconditional `raise`. -/

/-- `DBMApproximatorViaDBM.update_sequence`. -/
def dbmApproximatorViaDbmUpdateSequence {δ : Type} (seqApprox : List DBMOp)
    (_data : δ) : Except PyErr (List DBMOp) × List DBMOp :=
  (.error (.exception "No on-the-fly approach for O(DBM) implemented yet."),
    seqApprox)

/-- `DBMConstrainerViaFCS.update_sequence`. -/
def fcsUpdateSequence {δ : Type} (seqConstr : List DBMOp) (_data : δ) :
    Except PyErr (List DBMOp) × List DBMOp :=
  (.error (.exception "No on-the-fly approach for C(FCS) implemented yet."),
    seqConstr)

/-- `DBMConstrainerViaMCS.update_sequence`. -/
def mcsUpdateSequence {δ : Type} (seqConstr : List DBMOp) (_data : δ) :
    Except PyErr (List DBMOp) × List DBMOp :=
  (.error (.exception "No on-the-fly approach for C(MCS) implemented yet."),
    seqConstr)

/-- `DBMConstrainerViaRCS.update_sequence`. -/
def rcsUpdateSequence {δ : Type} (seqConstr : List DBMOp) (_data : δ) :
    Except PyErr (List DBMOp) × List DBMOp :=
  (.error (.exception "No on-the-fly approach for C(RCS) implemented yet."),
    seqConstr)

/-! ## `rinast/trans` — the vector transformation algebra -/

/-- The four `SpecificationMapping` implementations
(`static_assignment.py`, `static_addition.py`, `minimum_addition.py`,
`minimum_assignment.py`). -/
inductive Mapping where
  | staticAssignment (value : DBValue)
  | staticAddition (adder : DBValue)
  | minimumAddition
  | minimumAssignment (value : DBValue)
  deriving Repr, DecidableEq

/-- `mapping.map(parameters)`: out-of-range parameter accesses are Python
`IndexError`s (never reached by the transformations the DBM system builds). -/
def Mapping.map : Mapping → List DBValue → Except PyErr DBValue
  | .staticAssignment v, _ => .ok v
  | .staticAddition a, ps =>
    match ps.get? 0 with
    | some p => .ok (p.add a)
    | none => .error .indexError
  | .minimumAddition, ps =>
    match ps.get? 0, ps.get? 1, ps.get? 2 with
    | some r, some p1, some p2 =>
      let s := p1.add p2
      .ok (if s.compareTo r < 0 then s else r)
    | _, _, _ => .error .indexError
  | .minimumAssignment v, ps =>
    match ps.get? 0 with
    | some p => .ok (if v.compareTo p < 0 then v else p)
    | none => .error .indexError

/-- A `SpecificationEntry`: target index (source attribute name `variable`,
renamed because `variable` is a Lean keyword), parameter indices, mapping. -/
structure SpecEntry where
  varIdx : Nat
  parameters : List Nat
  mapping : Mapping
  deriving Repr, DecidableEq

/-- The transformation type tags of `transformation_info.py`. -/
inductive TType where
  | up
  | urgent
  | reset
  | constr
  deriving Repr, DecidableEq

/-- `TransformationInfo` after its constructor ran: `Up`/`Urgent` store
clocks `0,0` and no value, `Reset` stores `(clock, 0)` and
`DBValue(value, True)`, `Constraint` stores both clocks and the bound. -/
structure TransformationInfo where
  type : TType
  clock1 : Nat
  clock2 : Nat
  value : Option DBValue
  deriving Repr, DecidableEq

/-- A `SimpleTransformation`: its ordered specification entries plus the
optional attached info record. -/
structure SimpleT where
  spec : List SpecEntry
  info : Option TransformationInfo := none
  deriving Repr, DecidableEq

/-- A `Transformation` is either simple or compound.  In the source a
`CompoundTransformation` may hold arbitrary nested transformations, but the
DBM system only ever nests simple ones, which is what we model. -/
inductive Transformation where
  | simple (t : SimpleT)
  | compound (ts : List SimpleT) (info : Option TransformationInfo)
  deriving Repr, DecidableEq

/-- `SpecificationEntry.get_parameters`: read the parameter values from the
(pre-transformation) evaluation vector. -/
def getParameters (e : List DBValue) (params : List Nat) :
    Except PyErr (List DBValue) :=
  params.mapM fun i =>
    match e.get? i with
    | some v => .ok v
    | none => .error .indexError

/-- `SimpleTransformation.apply`: copy the evaluation, then run every
specification entry in order, reading parameters from the original
evaluation and writing into the copy. -/
def applySimple (t : SimpleT) (e : List DBValue) :
    Except PyErr (List DBValue) :=
  t.spec.foldlM (fun result entry => do
      let ps ← getParameters e entry.parameters
      let v ← entry.mapping.map ps
      if entry.varIdx < result.length then pure (result.set entry.varIdx v)
      else throw .indexError)
    e

/-- `Transformation.apply` (compound: thread each member's result into the
next). -/
def Transformation.applyTo : Transformation → List DBValue →
    Except PyErr (List DBValue)
  | .simple t, e => applySimple t e
  | .compound ts _, e => ts.foldlM (fun acc t => applySimple t acc) e

/-- Add to a Python integer set, modelled as a duplicate-free list in
insertion order. -/
def pyInsert (l : List Nat) (x : Nat) : List Nat :=
  if l.contains x then l else l ++ [x]

/-- `SimpleTransformation.get_read_set`: all parameter indices. -/
def simpleReadSet (t : SimpleT) : List Nat :=
  t.spec.foldl (fun acc e => e.parameters.foldl pyInsert acc) []

/-- `SimpleTransformation.get_write_set`: all target indices. -/
def simpleWriteSet (t : SimpleT) : List Nat :=
  t.spec.foldl (fun acc e => pyInsert acc e.varIdx) []

/-- `CompoundTransformation.get_read_set` / `get_write_set`: reads exclude
indices written by earlier members; writes accumulate. -/
def compoundReadWrite (ts : List SimpleT) : List Nat × List Nat :=
  ts.foldl (fun acc t =>
      let read := (simpleReadSet t).filter fun r => !acc.2.contains r
      (read.foldl pyInsert acc.1, (simpleWriteSet t).foldl pyInsert acc.2))
    ([], [])

/-- `transformation.get_read_set()`. -/
def Transformation.readSet : Transformation → List Nat
  | .simple t => simpleReadSet t
  | .compound ts _ => (compoundReadWrite ts).1

/-- `transformation.get_write_set()`. -/
def Transformation.writeSet : Transformation → List Nat
  | .simple t => simpleWriteSet t
  | .compound ts _ => (compoundReadWrite ts).2

/-- `transformation.get_info()`. -/
def Transformation.getInfo : Transformation → Option TransformationInfo
  | .simple t => t.info
  | .compound _ info => info

/-! ## `rinast/dbm/dbm_system.py` — the DBM transformation system -/

/-- `DBMSystem.create_up_transformation`: every first-column entry except the
diagonal one (flat indices `n, 2n, …, (n-1)·n`) is assigned
`(sys.maxsize, strict)`. -/
def createUpTransformation (n : Nat) : Transformation :=
  .simple
    ⟨(List.range' n (n - 1) n).map fun i =>
        ⟨i, [], .staticAssignment (DBValue.mk' maxsize false)⟩,
      some ⟨.up, 0, 0, none⟩⟩

/-- `DBMSystem.create_urgent_transformation`: min-plus tightening through the
reference clock for every off-diagonal non-reference pair. -/
def createUrgentTransformation (n : Nat) : Transformation :=
  .simple
    ⟨(List.range (n - 1)).flatMap fun i0 =>
        (List.range (n - 1)).filterMap fun t0 =>
          let i := i0 + 1
          let top := t0 + 1
          if i = top then none
          else some ⟨i * n + top, [i * n + top, i * n, top],
            .minimumAddition⟩,
      some ⟨.urgent, 0, 0, none⟩⟩

/-- `DBMSystem.create_reset_transformation(clock, value)`: rewrite row and
column `clock` from row/column `0` offset by `±value`. -/
def createResetTransformation (n clock : Nat) (value : Int) : Transformation :=
  .simple
    ⟨(List.range n).flatMap fun top =>
        if top ≠ clock then
          [⟨clock + top * n, [top * n],
             .staticAddition (DBValue.mk' (-value) true)⟩,
           ⟨clock * n + top, [top],
             .staticAddition (DBValue.mk' value true)⟩]
        else [],
      some ⟨.reset, clock, 0, some (DBValue.mk' value true)⟩⟩

/-- `DBMSystem.create_constraint_transformation(clock1, clock2, constraint)`:
a compound of the entry tightening followed by the restricted min-plus
propagation through `clock1` and `clock2` over all index pairs. -/
def createConstraintTransformation (n c1 c2 : Nat) (constraint : DBValue) :
    Transformation :=
  .compound
    (⟨[⟨c1 * n + c2, [c1 * n + c2], .minimumAssignment constraint⟩], none⟩ ::
      (List.range n).flatMap fun i =>
        (List.range n).flatMap fun j =>
          [⟨[⟨i * n + j, [i * n + j, i * n + c1, c1 * n + j],
              .minimumAddition⟩], none⟩,
           ⟨[⟨i * n + j, [i * n + j, i * n + c2, c2 * n + j],
              .minimumAddition⟩], none⟩])
    (some ⟨.constr, c1, c2, some constraint⟩)

/-- Replace the value stored under a key in an insertion-ordered Python
dictionary (association list), appending the binding if the key is new. -/
def assocSet {κ ν : Type} [BEq κ] : List (κ × ν) → κ → ν → List (κ × ν)
  | [], k, v => [(k, v)]
  | (k0, v0) :: rest, k, v =>
    if k0 == k then (k0, v) :: rest else (k0, v0) :: assocSet rest k v

/-- A `Reductor` as the `TransformationSystem` uses one while recording: the
state type `ρ` and the step function called by `apply_transformation`.
(`eliminate`/`get_path` only run after recording and are handled by the
callers.) -/
structure GenReductor (ρ : Type) where
  applyFn : ρ → List DBValue → Transformation → List DBValue → ρ

/-- The mutable state of a `TransformationSystem`. -/
structure TransfState (ρ : Type) where
  current : List DBValue
  reductorState : ρ
  transCount : Nat
  invalidated : Bool

/-- `TransformationSystem.apply_transformation`: transform the current
evaluation, report the step to the reductor, advance. -/
def applyTransformationTS {ρ : Type} (red : GenReductor ρ)
    (st : TransfState ρ) (t : Transformation) :
    Except PyErr (TransfState ρ) := do
  let result ← t.applyTo st.current
  pure ⟨result, red.applyFn st.reductorState st.current t result,
    st.transCount + 1, true⟩

/-- The mutable state of a `DBMSystem` (the memoized `Reset`/`Constraint`
transformation caches keyed by their defining parameters, the shared
`up`/`urgent` transformations, and the underlying transformation system). -/
structure DBMSystemState (ρ : Type) where
  clockCount : Nat
  resets : List ((Nat × Int) × Transformation)
  constraints : List ((Nat × Nat × DBValue) × Transformation)
  up : Transformation
  urgent : Transformation
  transCount : Nat
  transf : TransfState ρ

/-- `DBMSystem.create_evaluation`: the all `(0, non-strict)` vector of length
`clock_count²`. -/
def createEvaluation (n : Nat) : List DBValue :=
  List.replicate (n * n) (DBValue.mk' 0 true)

/-- `DBMSystem.__init__(clock_count)` together with
`set_initial_evaluation`, for a reductor with initial state `r0`. -/
def dbmSystemInit (ρ : Type) (n : Nat) (r0 : ρ) : DBMSystemState ρ :=
  ⟨n, [], [], createUpTransformation n, createUrgentTransformation n, 0,
    ⟨createEvaluation n, r0, 0, true⟩⟩

/-- `DBMSystem.get_reset_transformation`: cache hit or create-and-store. -/
def getResetTransformation {ρ : Type} (st : DBMSystemState ρ)
    (clock : Nat) (value : Int) : Transformation × DBMSystemState ρ :=
  match st.resets.lookup (clock, value) with
  | some t => (t, st)
  | none =>
    let t := createResetTransformation st.clockCount clock value
    (t, { st with resets := assocSet st.resets (clock, value) t })

/-- `DBMSystem.get_constraint_transformation`: cache hit or
create-and-store. -/
def getConstraintTransformation {ρ : Type} (st : DBMSystemState ρ)
    (c1 c2 : Nat) (constraint : DBValue) :
    Transformation × DBMSystemState ρ :=
  match st.constraints.lookup (c1, c2, constraint) with
  | some t => (t, st)
  | none =>
    let t := createConstraintTransformation st.clockCount c1 c2 constraint
    (t, { st with
      constraints := assocSet st.constraints (c1, c2, constraint) t })

/-- `DBMSystem.apply_transformation`. -/
def dbmApplyTransformation {ρ : Type} (red : GenReductor ρ)
    (st : DBMSystemState ρ) (t : Transformation) :
    Except PyErr (DBMSystemState ρ) := do
  let transf ← applyTransformationTS red st.transf t
  pure { st with transCount := st.transCount + 1, transf := transf }

/-! ## `rinast/uppaal` and `dbm_constructor_rinast.py` -/

/-- An UPPAAL `Variable` identity: optional template-instance name plus local
name (the attribute `instance` is renamed `inst`, `instance` being a Lean
keyword).  The mutable `value` field of clock variables always holds the
clock's index and is represented positionally. -/
structure PyVar where
  inst : Option String
  name : String
  deriving Repr, DecidableEq

/-- `Variable.__init__`: split a fully qualified name on the first dot. -/
def mkPyVar (fullName : String) : PyVar :=
  match fullName.splitOn "." with
  | [n] => ⟨none, n⟩
  | i :: n :: _ => ⟨some i, n⟩
  | [] => ⟨none, fullName⟩

/-- `split_full_clock_name` of `dbm_constructor_rinast.py`. -/
def splitFullClockName (fullClockName : String) : Option String × String :=
  match fullClockName.splitOn "." with
  | [n] => (none, n)
  | i :: n :: _ => (some i, n)
  | [] => (none, fullClockName)

/-- The state of a `TASystem` relevant to sequence replay: the clock
variables in index order, the clock-to-index dictionary, and the underlying
DBM system. -/
structure TAState (ρ : Type) where
  clocks : List PyVar
  clockToIndex : List (PyVar × Nat)
  dbm : DBMSystemState ρ

/-- `TASystem.__init__(clock_names, …)` (clock part plus the DBM system; the
data-variable and constant tables play no role in sequence replay). -/
def taInit (ρ : Type) (clockNames : List String) (r0 : ρ) : TAState ρ :=
  let clocks := clockNames.map mkPyVar
  ⟨clocks,
    clocks.enum.foldl (fun acc p => assocSet acc p.2 p.1) [],
    dbmSystemInit ρ clockNames.length r0⟩

/-- `TASystem.get_clock(instance, name)` followed by the caller's
`.get_value()`: resolve a clock to its index.  A `name` of `None` yields the
reference clock `clocks[0]`; otherwise look the variable up, retrying
without the instance part, where the second, subscripted lookup raises
`KeyError` on a miss. -/
def taGetClock {ρ : Type} (st : TAState ρ) (inst : Option String)
    (name : Option String) : Except PyErr Nat :=
  match name with
  | none => if st.clocks.isEmpty then .error .indexError else .ok 0
  | some nm =>
    let base := mkPyVar nm
    let clock := match inst with
      | some i => { base with inst := some i }
      | none => base
    match st.clockToIndex.lookup clock with
    | some idx => .ok idx
    | none =>
      match st.clockToIndex.lookup { clock with inst := none } with
      | some idx => .ok idx
      | none => .error .keyErrorOther

/-- One iteration of the dispatch loop of
`DBMReconstructorRinast._append_sequence_to_ta_system`. -/
def appendOneOpToTASystem {ρ : Type} (red : GenReductor ρ) (st : TAState ρ) :
    DBMOp → Except PyErr (TAState ρ)
  | .reset clockFull val => do
    let (inst, nm) := splitFullClockName clockFull
    let clockIdx ← taGetClock st inst (some nm)
    let (t, dbmSt) := getResetTransformation st.dbm clockIdx val
    let dbmSt ← dbmApplyTransformation red dbmSt t
    pure { st with dbm := dbmSt }
  | .constraint clock1 clock2 rel val => do
    let p1 := clock1.map splitFullClockName
    let clockIdx1 ← taGetClock st (p1.bind (·.1)) (p1.map (·.2))
    let p2 := clock2.map splitFullClockName
    let clockIdx2 ← taGetClock st (p2.bind (·.1)) (p2.map (·.2))
    let bound := rel.contains '='
    let (t, dbmSt) := getConstraintTransformation st.dbm clockIdx1 clockIdx2
      (DBValue.mk' val bound)
    let dbmSt ← dbmApplyTransformation red dbmSt t
    pure { st with dbm := dbmSt }
  | .delayFuture => do
    let dbmSt ← dbmApplyTransformation red st.dbm st.dbm.up
    pure { st with dbm := dbmSt }
  | .close => pure st
  | .unsupported desc =>
    .error (.exception ("Operation of type " ++ desc ++ " is not supported."))

/-- `DBMReconstructorRinast._append_sequence_to_ta_system(seq)`. -/
def appendSequenceToTASystem {ρ : Type} (red : GenReductor ρ)
    (st : TAState ρ) (seq : List DBMOp) : Except PyErr (TAState ρ) :=
  seq.foldlM (appendOneOpToTASystem red) st

/-! ## `rinast/trans/reduce/counter_reductor.py` -/

/-- `UniqueTransformation`: a transformation tagged with a unique id. -/
structure UniqueT where
  transformation : Transformation
  id : Nat
  deriving Repr, DecidableEq

/-- The mutable state of a `CounterReductor`. -/
structure CounterState where
  uniqueId : Nat
  transformations : List UniqueT
  counters : List (Option UniqueT × Int)
  responsibilities : List (Nat × UniqueT)
  uses : List (UniqueT × List UniqueT)

/-- `CounterReductor()` construction followed by
`initialize(system, initial_evaluation)`: only the virtual `None`
transformation receives a counter; crucially, the `responsibilities`
dictionary — which per the source comment should make `None` "responsible
for all variables initially" — is left empty. -/
def counterInitialize (variableCount : Nat) : CounterState :=
  ⟨0, [], [(none, (variableCount : Int))], [], []⟩

/-- `self.counters[key] += delta`: fails with `KeyError` when the key has no
counter yet. -/
def countersIncr (cs : List (Option UniqueT × Int)) (k : Option UniqueT)
    (delta : Int) : Except PyErr (List (Option UniqueT × Int)) :=
  match cs.lookup k with
  | none => .error .keyErrorOther
  | some c => .ok (assocSet cs k (c + delta))

/-- The read loop of `CounterReductor.apply`: look up the transformation
responsible for each read index (`self.responsibilities[i]`, a `KeyError`
when the index was never written — which is always the case on the first
recorded step because `initialize` populates no responsibilities), increment
its counter and collect it into the `loci` set. -/
def counterReadLoop (resp : List (Nat × UniqueT)) :
    List Nat → List (Option UniqueT × Int) → List UniqueT →
    Except PyErr (List (Option UniqueT × Int) × List UniqueT)
  | [], cs, loci => .ok (cs, loci)
  | i :: rest, cs, loci =>
    match resp.lookup i with
    | none => .error (.keyError i)
    | some r => do
      let cs ← countersIncr cs (some r) 1
      counterReadLoop resp rest cs
        (if loci.contains r then loci else loci ++ [r])

/-- The write loop of `CounterReductor.apply`: decrement the counter of the
previous writer of each written index (`self.responsibilities[i]`, again a
`KeyError` for a never-written index) and take over responsibility. -/
def counterWriteLoop (unique : UniqueT) :
    List Nat → List (Option UniqueT × Int) → List (Nat × UniqueT) →
    Except PyErr (List (Option UniqueT × Int) × List (Nat × UniqueT))
  | [], cs, resp => .ok (cs, resp)
  | i :: rest, cs, resp =>
    match resp.lookup i with
    | none => .error (.keyError i)
    | some r => do
      let cs ← countersIncr cs (some r) (-1)
      counterWriteLoop unique rest cs (assocSet resp i unique)

/-- `CounterReductor.apply(evaluation, transformation,
transformed_evaluation)`.  Even when both loops pass, the closing statement
`self.counters[unique] = writes.size()` calls the non-existent method
`size()` on a Python `set` (an unported Java `Set.size()`), so every
completed call raises `AttributeError`. -/
def counterApply (st : CounterState) (t : Transformation) :
    Except PyErr CounterState := do
  let unique : UniqueT := ⟨t, st.uniqueId⟩
  let st := { st with
    uniqueId := st.uniqueId + 1
    transformations := st.transformations ++ [unique] }
  let (cs, loci) ← counterReadLoop st.responsibilities t.readSet st.counters []
  let st := { st with counters := cs, uses := assocSet st.uses unique loci }
  let (cs, resp) ←
    counterWriteLoop unique t.writeSet st.counters st.responsibilities
  let _st := { st with counters := cs, responsibilities := resp }
  throw (.attributeError "size")

/-- `CounterReductor.get_path()`: unwrap the remaining transformations. -/
def counterGetPath (st : CounterState) : List Transformation :=
  st.transformations.map (·.transformation)

/-! ## Derived predicates and concrete instances used in the statements -/

/-- Does the call outcome model a raised Python exception? -/
def raisesB {α : Type} : Except PyErr α → Bool
  | .error _ => true
  | .ok _ => false

/-- The close-appending contract of the three constrainers against a target
DBM `d`: the sequence consists of constraints plus possibly a close, and it
ends in exactly one trailing `Close` precisely when the number of emitted
constraints is below `clocks·(clocks−1) − #(infinite entries)`. -/
def closeBehavior (s : List DBMOp) (d : Dbm) : Prop :=
  (∀ op ∈ s, op.isConstraint = true ∨ op = .close) ∧
  (if ((s.filter (·.isConstraint)).length : Int) < closeThreshold d
    then s = s.filter (·.isConstraint) ++ [.close]
    else s = s.filter (·.isConstraint))

/-- A concrete 3-clock target DBM (reference clock and `x` tied in a
zero-weight cycle, `y` separate, no infinite entries). -/
def dbm3 : Dbm :=
  ⟨["t(0)", "x", "y"],
    [[⟨.fin 0, "<="⟩, ⟨.fin 0, "<="⟩, ⟨.fin 3, "<="⟩],
     [⟨.fin 0, "<="⟩, ⟨.fin 0, "<="⟩, ⟨.fin 3, "<="⟩],
     [⟨.fin 0, "<="⟩, ⟨.fin 0, "<="⟩, ⟨.fin 0, "<="⟩]]⟩

/-- A concrete source DBM sharing no entry with `dbm3`. -/
def srcOther3 : Dbm :=
  ⟨["t(0)", "x", "y"],
    [[⟨.fin 9, "<"⟩, ⟨.fin 9, "<"⟩, ⟨.fin 9, "<"⟩],
     [⟨.fin 9, "<"⟩, ⟨.fin 9, "<"⟩, ⟨.fin 9, "<"⟩],
     [⟨.fin 9, "<"⟩, ⟨.fin 9, "<"⟩, ⟨.fin 9, "<"⟩]]⟩

/-- An entry row builder for the 7-clock example: entries `(v, "<=")`. -/
def row7 (vs : List Int) : List DBMEntry :=
  vs.map fun v => ⟨.fin v, "<="⟩

/-- A concrete 7-clock target DBM whose first six clocks form one
zero-equivalence class (all mutual entries zero) while the seventh is
separated by weight-2 two-edge cycles. -/
def dbm7 : Dbm :=
  ⟨["t(0)", "a", "b", "c", "d", "e", "f"],
    [row7 [0, 0, 0, 0, 0, 0, 1],
     row7 [0, 0, 0, 0, 0, 0, 1],
     row7 [0, 0, 0, 0, 0, 0, 1],
     row7 [0, 0, 0, 0, 0, 0, 1],
     row7 [0, 0, 0, 0, 0, 0, 1],
     row7 [0, 0, 0, 0, 0, 0, 1],
     row7 [1, 1, 1, 1, 1, 1, 0]]⟩

/-- A concrete 7-clock source DBM sharing no off-diagonal entry with
`dbm7`. -/
def src7 : Dbm :=
  ⟨["t(0)", "a", "b", "c", "d", "e", "f"],
    List.replicate 7 ((List.replicate 7 (⟨.fin 9, "<"⟩ : DBMEntry)))⟩

/-- The six-member zero-equivalence class of `dbm7`. -/
def eqBig : List ClockRef :=
  [("t(0)", 0), ("a", 1), ("b", 2), ("c", 3), ("d", 4), ("e", 5)]

/-- A toy zone type instantiation for exercising the generic OC orchestrator:
the "zone" is a counter and applying a sequence adds its length. -/
def natApplySeq : List DBMOp → Nat → Nat := fun s d => d + s.length

/-- A toy approximator returning one `DelayFuture`. -/
def okDelay : RecData Nat → Except PyErr (List DBMOp) := fun _ => .ok [.delayFuture]

/-- A toy constrainer returning one `Close`. -/
def okClose : RecData Nat → Except PyErr (List DBMOp) := fun _ => .ok [.close]

/-- A concrete reconstruction input with a present source zone. -/
def recData0 : RecData Nat := ⟨some 0, none, none, []⟩

/-- The reconstruction result of the toy pipeline on `recData0`. -/
def recResult0 : RecResult Nat := ⟨2, [.delayFuture, .close], [.delayFuture], [.close]⟩

/-- Is the operation a `Reset` of the given clock? -/
def DBMOp.isResetOf (c : String) : DBMOp → Bool
  | .reset c' _ => c' = c
  | _ => false

/-- The reset value carried by an operation when it resets clock `c`. -/
def resetMatch (c : String) : DBMOp → Option Int
  | .reset c' v => if c' = c then some v else none
  | _ => none

/-- The value of the most recent (`= last in forward order`) reset of clock
`c` in an operation sequence, if any. -/
def lastResetValue (l : List DBMOp) (c : String) : Option Int :=
  l.reverse.findSome? (resetMatch c)

/-! # Theorems settling the claims -/

theorem counterReadLoop_nil_resp_error (i : Nat) (rest : List Nat)
    (cs : List (Option UniqueT × Int)) (loci : List UniqueT) :
    counterReadLoop [] (i :: rest) cs loci = .error (.keyError i) := rfl

theorem counterWriteLoop_nil_resp_error (u : UniqueT) (i : Nat)
    (rest : List Nat) (cs : List (Option UniqueT × Int)) :
    counterWriteLoop u (i :: rest) cs [] = .error (.keyError i) := rfl

/-- C1.  The claim states that a transformation sequence can be recorded on a
`CounterReductor` step by step via `apply` and then reduced by `eliminate`.
In fact every single `apply` call on a freshly initialized `CounterReductor`
raises: looking up `self.responsibilities[i]` for any read or written index
is a `KeyError` because `initialize` populates no responsibilities (contrary
to its own comment that the virtual `None` transformation "is responsible
for all variables initially"), and a transformation with neither reads nor
writes still reaches `self.counters[unique] = writes.size()`, an
`AttributeError` since Python sets have no `size` method.  Hence no step can
ever be recorded and the claimed reduction pipeline is unreachable. -/
theorem counter_reductor_apply_always_raises (variableCount : Nat)
    (t : Transformation) :
    raisesB (counterApply (counterInitialize variableCount) t) = true := by
  unfold counterApply counterInitialize
  cases hr : t.readSet with
  | cons i rest =>
    simp only [hr, counterReadLoop_nil_resp_error]
    rfl
  | nil =>
    cases hw : t.writeSet with
    | cons i rest =>
      simp only [hr, hw]
      rfl
    | nil =>
      simp only [hr, hw]
      rfl

/-- C5.  The claim compares the reduced-path lengths of `GraphReductor` and
`CounterReductor` on a common recorded sequence; but no non-empty sequence
can be recorded on a `CounterReductor` at all.  Concretely, recording the
2-clock `Up` transformation (the first step of any replayed trace containing
a `DelayFuture`) on a freshly initialized `CounterReductor` raises
`KeyError(2)` when the write loop looks up `self.responsibilities[2]`, so
`CounterReductor.get_path()` can never return the baseline path the claim
measures against. -/
theorem counter_reductor_concrete_record_step_raises :
    counterApply (counterInitialize 4) (createUpTransformation 2)
      = .error (.keyError 2) := rfl

/-- C8 counterexample.  `add` on two constructor-produced values (each
satisfying the invariant) whose finite values sum exactly to `sys.maxsize`
returns `(maxsize, non-strict)`, falsifying the claimed invariant for values
produced by `add`. -/
theorem dbvalue_add_invariant_counterexample :
    (DBValue.mk' (maxsize - 1) true).inv ∧ (DBValue.mk' 1 true).inv ∧
    (DBValue.mk' (maxsize - 1) true).add (DBValue.mk' 1 true)
      = ⟨maxsize, true⟩ ∧
    ¬ ((DBValue.mk' (maxsize - 1) true).add (DBValue.mk' 1 true)).inv := by
  refine ⟨?_, ?_, ?_, ?_⟩ <;> decide

/-- C8 (amended).  Values produced by the constructor and by `set_value`
always satisfy the sentinel invariant, `set_bound` preserves it, and `add`
saturates at the sentinel once either operand is the sentinel and otherwise
adds values and conjoins the non-strict flags; the `add` result satisfies
the invariant provided either an operand is the sentinel or the two finite
values do not sum exactly to the sentinel (in that remaining case the
invariant can be violated, as the counterexample shows). -/
theorem dbvalue_invariant_amended :
    (∀ (v : Int) (b : Bool), (DBValue.mk' v b).inv) ∧
    (∀ (x : DBValue) (v : Int), (x.setValue v).inv) ∧
    (∀ (x : DBValue) (b : Bool), x.inv → (x.setBound b).inv) ∧
    (∀ x y : DBValue, (x.value = maxsize ∨ y.value = maxsize) →
      x.add y = ⟨maxsize, false⟩) ∧
    (∀ x y : DBValue, x.value ≠ maxsize → y.value ≠ maxsize →
      x.add y = ⟨x.value + y.value, x.bound && y.bound⟩) ∧
    (∀ x y : DBValue, (x.value = maxsize ∨ y.value = maxsize) →
      (x.add y).inv) ∧
    (∀ x y : DBValue, x.value + y.value ≠ maxsize → (x.add y).inv) := by
  refine ⟨?_, ?_, ?_, ?_, ?_, ?_, ?_⟩
  · intro v b h
    simp only [DBValue.mk'] at h ⊢
    simp [h]
  · intro x v h
    simp only [DBValue.setValue] at h ⊢
    simp [h]
  · intro x b hx h
    unfold DBValue.setBound at h ⊢
    split at h
    · simp_all
    · simp_all [DBValue.inv]
  · intro x y h
    unfold DBValue.add
    simp [h]
  · intro x y hx hy
    unfold DBValue.add
    simp [hx, hy]
  · intro x y h
    unfold DBValue.add
    simp [h, DBValue.inv]
  · intro x y h
    unfold DBValue.add
    split
    · simp [DBValue.inv]
    · intro hv
      simp only at hv
      exact absurd hv h

/-- C8 witness: the amended invariant statements applied at concrete
values. -/
theorem dbvalue_invariant_amended_witness :
    ((DBValue.mk' 3 true).setBound false).inv ∧
    ((DBValue.mk' 2 true).add (DBValue.mk' 3 false)).inv ∧
    ((DBValue.mk' maxsize true).add (DBValue.mk' 1 true)).inv :=
  ⟨dbvalue_invariant_amended.2.2.1 (DBValue.mk' 3 true) false (by decide),
    dbvalue_invariant_amended.2.2.2.2.2.2 (DBValue.mk' 2 true)
      (DBValue.mk' 3 false) (by decide),
    dbvalue_invariant_amended.2.2.2.2.2.1 (DBValue.mk' maxsize true)
      (DBValue.mk' 1 true) (by decide)⟩

/-- C9.  Calling `update_sequence` (the on-the-fly entry point) on the
zone-based approximator or on any of the three constrainers raises
unconditionally and leaves the object's stored sequence unchanged. -/
theorem update_sequence_stubs_raise {δ : Type} (st : List DBMOp) (data : δ) :
    (raisesB (dbmApproximatorViaDbmUpdateSequence st data).1 = true ∧
      (dbmApproximatorViaDbmUpdateSequence st data).2 = st) ∧
    (raisesB (fcsUpdateSequence st data).1 = true ∧
      (fcsUpdateSequence st data).2 = st) ∧
    (raisesB (mcsUpdateSequence st data).1 = true ∧
      (mcsUpdateSequence st data).2 = st) ∧
    (raisesB (rcsUpdateSequence st data).1 = true ∧
      (rcsUpdateSequence st data).2 = st) :=
  ⟨⟨rfl, rfl⟩, ⟨rfl, rfl⟩, ⟨rfl, rfl⟩, ⟨rfl, rfl⟩⟩

theorem appendSequence_cons {ρ : Type} (red : GenReductor ρ) (st : TAState ρ)
    (op : DBMOp) (rest : List DBMOp) :
    appendSequenceToTASystem red st (op :: rest) =
      (appendOneOpToTASystem red st op) >>= fun st2 =>
        appendSequenceToTASystem red st2 rest := rfl

/-- C10.  During Rinast replay, `Close()` is handled by a bare `pass`: the
replayed system state (current Evaluation, reduction record, caches and
counters alike) after any operation sequence equals the state after the same
sequence with all `Close()` operations removed — for every reductor — while
replaying an operation of an unsupported kind raises immediately. -/
theorem rinast_close_is_noop {ρ : Type} (red : GenReductor ρ)
    (st : TAState ρ) (ops : List DBMOp) :
    appendSequenceToTASystem red st (ops.filter (fun op => !op.isClose)) =
      appendSequenceToTASystem red st ops ∧
    ∀ (desc : String) (rest : List DBMOp),
      appendSequenceToTASystem red st (.unsupported desc :: rest) =
        .error (.exception
          ("Operation of type " ++ desc ++ " is not supported.")) := by
  constructor
  · induction ops generalizing st with
    | nil => rfl
    | cons op rest ih =>
      by_cases hc : op.isClose = true
      · have hop : op = .close := by
          cases op <;> simp [DBMOp.isClose] at hc ⊢
        subst hop
        rw [show (DBMOp.close :: rest).filter (fun o => !o.isClose)
            = rest.filter (fun o => !o.isClose) by simp [DBMOp.isClose]]
        rw [ih, appendSequence_cons]
        rfl
      · rw [show (op :: rest).filter (fun o => !o.isClose)
            = op :: rest.filter (fun o => !o.isClose) by simp [hc]]
        rw [appendSequence_cons, appendSequence_cons]
        cases h : appendOneOpToTASystem red st op with
        | error e => rfl
        | ok st2 => exact ih st2
  · intro desc rest
    rfl

/-- C4.  `time_measured_reconstruction` raises when no source DBM is given;
whenever it returns, the returned `seq_rec` is `seq_approx ++ seq_constr`
where `seq_approx` came from the selected approximator on the input data and
`seq_constr` from the selected constrainer on the input data with its source
DBM replaced by the approximated copy, and the returned zone is the result
of applying both sequences in that order. -/
theorem oc_reconstruction_concatenates {D : Type}
    (applySeq : List DBMOp → D → D)
    (approxGen approxUpd constrGen constrUpd :
      RecData D → Except PyErr (List DBMOp))
    (onTheFly : Bool) (data : RecData D) :
    (data.dbmInit = none →
      raisesB (timeMeasuredReconstruction applySeq approxGen approxUpd
        constrGen constrUpd onTheFly data) = true) ∧
    (∀ (d : D) (r : RecResult D), data.dbmInit = some d →
      timeMeasuredReconstruction applySeq approxGen approxUpd constrGen
          constrUpd onTheFly data = .ok r →
      r.seqRec = r.seqApprox ++ r.seqConstr ∧
      (if onTheFly then approxUpd data else approxGen data)
        = .ok r.seqApprox ∧
      (if onTheFly then constrUpd { data with
          dbmInit := some (applySeq r.seqApprox d) }
        else constrGen { data with
          dbmInit := some (applySeq r.seqApprox d) }) = .ok r.seqConstr ∧
      r.dbmRec = applySeq r.seqConstr (applySeq r.seqApprox d)) ∧
    (∀ (d : D) (sa sc : List DBMOp), data.dbmInit = some d →
      (if onTheFly then approxUpd data else approxGen data) = .ok sa →
      (if onTheFly then constrUpd { data with
          dbmInit := some (applySeq sa d) }
        else constrGen { data with dbmInit := some (applySeq sa d) })
        = .ok sc →
      timeMeasuredReconstruction applySeq approxGen approxUpd constrGen
          constrUpd onTheFly data
        = .ok ⟨applySeq sc (applySeq sa d), sa ++ sc, sa, sc⟩) := by
  refine ⟨?_, ?_, ?_⟩
  · intro h
    unfold timeMeasuredReconstruction
    rw [h]
    rfl
  · intro d r hd hr
    unfold timeMeasuredReconstruction timeMeasuredApproximation
      timeMeasuredConstraint at hr
    rw [hd] at hr
    simp only at hr
    cases ha : (if onTheFly then approxUpd data else approxGen data) with
    | error e =>
      rw [ha] at hr
      exact absurd hr (by simp [Bind.bind, Except.bind])
    | ok sa =>
      rw [ha] at hr
      simp only [Bind.bind, Except.bind, pure, Except.pure] at hr
      cases hc : (if onTheFly then
          constrUpd { data with dbmInit := some (applySeq sa d) }
        else constrGen { data with dbmInit := some (applySeq sa d) }) with
      | error e =>
        rw [hc] at hr
        exact absurd hr (by simp)
      | ok sc =>
        rw [hc] at hr
        simp only [Except.ok.injEq] at hr
        subst hr
        exact ⟨rfl, rfl, hc, rfl⟩
  · intro d sa sc hd ha hc
    unfold timeMeasuredReconstruction timeMeasuredApproximation
      timeMeasuredConstraint
    rw [hd]
    simp only
    rw [ha]
    simp only [Bind.bind, Except.bind, pure, Except.pure]
    rw [hc]

/-- C4 witness: the orchestrator contract applied to a concrete toy
pipeline. -/
theorem oc_reconstruction_concatenates_witness :
    recResult0.seqRec = recResult0.seqApprox ++ recResult0.seqConstr ∧
    (if false then okDelay recData0 else okDelay recData0)
      = .ok recResult0.seqApprox ∧
    (if false then okClose { recData0 with
        dbmInit := some (natApplySeq recResult0.seqApprox 0) }
      else okClose { recData0 with
        dbmInit := some (natApplySeq recResult0.seqApprox 0) })
      = .ok recResult0.seqConstr ∧
    recResult0.dbmRec
      = natApplySeq recResult0.seqConstr (natApplySeq recResult0.seqApprox 0) :=
  (oc_reconstruction_concatenates natApplySeq okDelay okDelay okClose okClose
    false recData0).2.1 0 recResult0 rfl rfl

theorem zeroEqClassesLoop_join_perm (d : Dbm) :
    ∀ (fuel : Nat) (l : List ClockRef), l.length ≤ fuel →
    (zeroEqClassesLoop d fuel l).flatten.Perm l := by
  intro fuel
  induction fuel with
  | zero =>
    intro l h
    cases l with
    | nil => simp [zeroEqClassesLoop]
    | cons c rest => simp at h
  | succ n ih =>
    intro l h
    cases l with
    | nil => simp [zeroEqClassesLoop]
    | cons c rest =>
      rw [zeroEqClassesLoop]
      simp only [List.flatten_cons, List.cons_append]
      refine List.Perm.cons c
        (List.Perm.trans (List.Perm.append_left _ (ih _ ?_))
          (List.filter_append_perm _ rest))
      calc (rest.filter fun cr => !zeroCyclePair d c.2 cr.2).length
          ≤ rest.length := List.length_filter_le _ _
        _ ≤ n := by simp only [List.length_cons] at h; omega

theorem clocks_zip_range_nodup (l : List String) :
    (l.zip (List.range l.length)).Nodup := by
  apply List.Nodup.of_map Prod.snd
  rw [List.map_snd_zip _ _ (by simp)]
  exact List.nodup_range _

/-- C7.  `get_zero_equivalence_classes` partitions the indexed clock list of
any DBM: the concatenation of the returned classes is a permutation of
`zip(dbm.clocks, range(len(dbm.clocks)))` and contains no duplicate, so no
clock is omitted and none appears in two classes. -/
theorem zero_equivalence_classes_partition (d : Dbm) :
    (getZeroEquivalenceClasses d).flatten.Perm
      (d.clocks.zip (List.range d.clocks.length)) ∧
    (getZeroEquivalenceClasses d).flatten.Nodup := by
  have hperm := zeroEqClassesLoop_join_perm d d.clocks.length
    (d.clocks.zip (List.range d.clocks.length)) (by simp)
  exact ⟨hperm, hperm.nodup_iff.mpr (clocks_zip_range_nodup d.clocks)⟩

theorem countP_flatMap {α β : Type} (p : β → Bool) (f : α → List β) :
    ∀ l : List α, (l.flatMap f).countP p
      = (l.map fun a => (f a).countP p).sum := by
  intro l
  induction l with
  | nil => simp
  | cons x xs ih => simp [List.flatMap_cons, List.countP_append, ih]

theorem countP_bool_split {α : Type} (l : List α) (q r : α → Bool) :
    l.countP (fun a => q a && r a) + l.countP (fun a => q a && !r a)
      = l.countP q := by
  induction l with
  | nil => simp
  | cons x xs ih =>
    simp only [List.countP_cons]
    cases hq : q x <;> cases hr : r x <;> simp [hq, hr] <;> omega

theorem countP_eq_self_range (i n : Nat) (h : i < n) :
    (List.range n).countP (fun j => decide (i = j)) = 1 := by
  induction n with
  | zero => omega
  | succ n ih =>
    rw [List.range_succ, List.countP_append]
    by_cases hin : i < n
    · rw [ih hin]
      have : i ≠ n := by omega
      simp [this]
    · have : i = n := by omega
      subst this
      have : (List.range i).countP (fun j => decide (i = j)) = 0 :=
        List.countP_eq_zero.mpr (by simp +contextual [List.mem_range]; omega)
      simp [this]

theorem fcsEmit_isSome (d : Dbm) (p : Nat × Nat) :
    (fcsEmit d p).isSome =
      (decide (p.1 ≠ p.2) && !decide ((d.entry p.1 p.2).val = EnVal.inf)) := by
  unfold fcsEmit
  by_cases h : p.1 = p.2
  · simp [h]
  · cases hv : (d.entry p.1 p.2).val <;> simp [h, hv]

theorem fcs_all_constraints (d : Dbm) :
    ∀ op ∈ fcsConstraints d, op.isConstraint = true := by
  intro op hop
  rcases List.mem_filterMap.mp hop with ⟨p, _, he⟩
  unfold fcsEmit at he
  split at he
  · split at he
    · exact absurd he (by simp)
    · cases he
      rfl
  · exact absurd he (by simp)

theorem edgeEmit_all_constraints (d : Dbm) (l : List ClockEdge) :
    ∀ op ∈ l.filterMap (edgeEmit d), op.isConstraint = true := by
  intro op hop
  rcases List.mem_filterMap.mp hop with ⟨e, _, he⟩
  unfold edgeEmit at he
  split at he
  · exact absurd he (by simp)
  · cases he
    rfl

theorem matrix_headD_length (d : Dbm) (hwf : d.wf) :
    (d.matrix.headD []).length = d.clocks.length := by
  cases hmat : d.matrix with
  | nil =>
    have := hwf.1
    rw [hmat] at this
    simpa using this
  | cons r rs =>
    simp only [List.headD_cons]
    exact hwf.2 r (hmat ▸ List.mem_cons_self r rs)

theorem countP_ne_self_range (i n : Nat) (h : i < n) :
    (List.range n).countP (fun j => decide (i ≠ j)) = n - 1 := by
  have hsplit := countP_bool_split (List.range n) (fun _ => true)
    (fun j => decide (i = j))
  simp only [Bool.true_and, List.countP_true, List.length_range] at hsplit
  have hself := countP_eq_self_range i n h
  have hconv : (List.range n).countP (fun j => decide (i ≠ j))
      = (List.range n).countP (fun j => !decide (i = j)) := by
    simp [decide_not]
  omega

theorem fcs_length_ge_threshold (d : Dbm) (hwf : d.wf) :
    closeThreshold d ≤ ((fcsConstraints d).length : Int) := by
  have hm : d.matrix.length = d.clocks.length := hwf.1
  have hh := matrix_headD_length d hwf
  set n := d.clocks.length with hn
  have hpairs : matrixPairs d
      = (List.range n).flatMap fun i => (List.range n).map fun j => (i, j) := by
    unfold matrixPairs
    rw [hm, hh]
  have hlen : (fcsConstraints d).length = (matrixPairs d).countP
      (fun p => decide (p.1 ≠ p.2)
        && !decide ((d.entry p.1 p.2).val = EnVal.inf)) := by
    unfold fcsConstraints
    rw [List.length_filterMap_eq_countP]
    simp only [fcsEmit_isSome]
  have hsplit := countP_bool_split (matrixPairs d)
    (fun p => decide (p.1 ≠ p.2))
    (fun p => decide ((d.entry p.1 p.2).val = EnVal.inf))
  have hmono : (matrixPairs d).countP
      (fun p => decide (p.1 ≠ p.2)
        && decide ((d.entry p.1 p.2).val = EnVal.inf)) ≤ infEntryCount d := by
    unfold infEntryCount
    apply List.countP_mono_left
    intro x _ hx
    simp only [Bool.and_eq_true, decide_eq_true_eq] at hx
    simpa using hx.2
  have hoff : (matrixPairs d).countP (fun p => decide (p.1 ≠ p.2))
      = n * (n - 1) := by
    rw [hpairs, countP_flatMap]
    have hinner : ∀ i ∈ List.range n,
        ((List.range n).map fun j => (i, j)).countP
          (fun p => decide (p.1 ≠ p.2)) = n - 1 := by
      intro i hi
      rw [List.countP_map]
      exact countP_ne_self_range i n (List.mem_range.mp hi)
    rw [List.map_congr_left hinner]
    simp [List.map_const', List.sum_replicate, smul_eq_mul, Nat.mul_comm]
  have hcast : ((n : Int)) * ((n : Int) - 1) = ((n * (n - 1) : Nat) : Int) := by
    cases n with
    | zero => simp
    | succ m =>
      push_cast [Nat.succ_sub_one]
      ring
  unfold closeThreshold
  rw [← hn, hcast, hlen]
  omega

theorem filter_eq_self_of_constraints (s : List DBMOp)
    (h : ∀ op ∈ s, op.isConstraint = true) :
    s.filter (·.isConstraint) = s :=
  List.filter_eq_self.mpr h

theorem closeBehavior_of_constraints (s : List DBMOp) (d : Dbm)
    (h : ∀ op ∈ s, op.isConstraint = true) :
    closeBehavior
      (s ++ if (s.length : Int) < closeThreshold d then [DBMOp.close] else [])
      d := by
  have hfil : (s ++ if (s.length : Int) < closeThreshold d then [DBMOp.close]
      else []).filter (·.isConstraint) = s := by
    rw [List.filter_append, filter_eq_self_of_constraints s h]
    split <;> simp [DBMOp.isConstraint]
  constructor
  · intro op hop
    rcases List.mem_append.mp hop with hs | hi
    · exact Or.inl (h op hs)
    · split at hi
      · simp only [List.mem_singleton] at hi
        exact Or.inr hi
      · exact absurd hi (List.not_mem_nil op)
  · rw [hfil]
    split <;> simp

/-- C2.  On any well-formed target DBM (and any source DBM and permutation
oracle for RCS), each of the three constrainer generators emits a sequence
of `Constraint` operations followed by exactly one trailing `Close` when and
only when the emitted constraint count is strictly below
`clocks·(clocks−1) − #(infinite entries)`; FCS never appends a `Close`, and
correspondingly its emitted count can never be below that bound. -/
theorem constrainers_close_behavior (d src : Dbm)
    (oracle : List ClockRef → List ClockRef) (hwf : d.wf) :
    closeBehavior (generateConstraintSequenceViaFcs d) d ∧
    closeBehavior (generateConstraintSequenceViaMcs d) d ∧
    closeBehavior (generateConstraintSequenceViaRcs src d oracle) d := by
  refine ⟨?_, ?_, ?_⟩
  · have hall := fcs_all_constraints d
    have hfil := filter_eq_self_of_constraints _ hall
    have hc : ¬ ((((generateConstraintSequenceViaFcs d).filter
        (·.isConstraint)).length : Int) < closeThreshold d) := by
      show ¬ (((fcsConstraints d).filter (·.isConstraint)).length : Int)
        < closeThreshold d
      rw [hfil]
      exact not_lt.mpr (fcs_length_ge_threshold d hwf)
    refine ⟨fun op hop => Or.inl (hall op hop), ?_⟩
    rw [if_neg hc]
    exact hfil.symm
  · exact closeBehavior_of_constraints (mcsConstraints d) d
      (edgeEmit_all_constraints d (mcsEdges d))
  · exact closeBehavior_of_constraints (rcsConstraints src d oracle) d
      (edgeEmit_all_constraints d (rcsEdges src d oracle).2)

/-- C2 witness: the close behavior at the concrete 3-clock target `dbm3`
(where MCS and RCS do append a trailing `Close` and FCS does not). -/
theorem constrainers_close_behavior_witness :
    closeBehavior (generateConstraintSequenceViaFcs dbm3) dbm3 ∧
    closeBehavior (generateConstraintSequenceViaMcs dbm3) dbm3 ∧
    closeBehavior (generateConstraintSequenceViaRcs srcOther3 dbm3 id) dbm3 :=
  constrainers_close_behavior dbm3 srcOther3 id
    (by constructor <;> decide)

theorem approxStep_cases (reduced : List DBMOp) (rc : List String)
    (df : Bool) (op : DBMOp) :
    (approxStep reduced rc df op = (reduced, rc, df) ∧
      ∀ c v, op = .reset c v → rc.contains c = true) ∨
    (op = .delayFuture ∧ df = false ∧
      approxStep reduced rc df op = (reduced ++ [op], rc, true)) ∨
    (∃ c v, op = .reset c v ∧ rc.contains c = false ∧
      approxStep reduced rc df op = (reduced ++ [op], rc ++ [c], false)) := by
  cases op with
  | delayFuture =>
    cases df
    · exact Or.inr (Or.inl ⟨rfl, rfl, rfl⟩)
    · exact Or.inl ⟨rfl, fun c v h => by cases h⟩
  | reset c v =>
    cases hc : rc.contains c
    · exact Or.inr (Or.inr ⟨c, v, rfl, hc,
        by simp only [approxStep, hc, Bool.not_false, if_true]⟩)
    · refine Or.inl ⟨by
        simp only [approxStep, hc, Bool.not_true, Bool.false_eq_true,
          if_false], ?_⟩
      intro c' v' h
      injection h with h1 h2
      subst h1
      exact hc
  | constraint c1 c2 r vv => exact Or.inl ⟨rfl, fun c v h => by cases h⟩
  | close => exact Or.inl ⟨rfl, fun c v h => by cases h⟩
  | unsupported s => exact Or.inl ⟨rfl, fun c v h => by cases h⟩

theorem approxScan_append (clocks : List String) :
    ∀ (ops reduced : List DBMOp) (rc : List String) (df : Bool),
    ∃ extra, approxScan clocks ops reduced rc df = reduced ++ extra ∧
      extra.Sublist ops := by
  intro ops
  induction ops with
  | nil =>
    intro reduced rc df
    exact ⟨[], by simp [approxScan], List.nil_sublist _⟩
  | cons op rest ih =>
    intro reduced rc df
    rcases approxStep_cases reduced rc df op with ⟨hst, _⟩ |
      ⟨hop, hdf, hst⟩ | ⟨c, v, hop, hc, hst⟩
    · simp only [approxScan, hst]
      split
      · exact ⟨[], by simp, List.nil_sublist _⟩
      · obtain ⟨extra, he, hs⟩ := ih reduced rc df
        exact ⟨extra, he, hs.cons op⟩
    · simp only [approxScan, hst]
      split
      · exact ⟨[op], rfl, (List.nil_sublist rest).cons₂ op⟩
      · obtain ⟨extra, he, hs⟩ := ih (reduced ++ [op]) rc true
        exact ⟨op :: extra, by rw [he]; simp, hs.cons₂ op⟩
    · simp only [approxScan, hst]
      split
      · exact ⟨[op], rfl, (List.nil_sublist rest).cons₂ op⟩
      · obtain ⟨extra, he, hs⟩ := ih (reduced ++ [op]) (rc ++ [c]) false
        exact ⟨op :: extra, by rw [he]; simp, hs.cons₂ op⟩

theorem contains_append_singleton_false {rc : List String} {c0 c : String}
    (h : (rc ++ [c0]).contains c = false) :
    rc.contains c = false ∧ c0 ≠ c := by
  have h' : ¬ (c ∈ rc ++ [c0]) := by simpa using h
  simp only [List.mem_append, List.mem_singleton, not_or] at h'
  exact ⟨by simpa using h'.1, fun he => h'.2 (by rw [he])⟩

theorem approxScan_reset_mem (clocks : List String) :
    ∀ (ops reduced : List DBMOp) (rc : List String) (df : Bool)
      (c : String) (v : Int),
    DBMOp.reset c v ∈ approxScan clocks ops reduced rc df →
    DBMOp.reset c v ∈ reduced ∨
      (rc.contains c = false ∧ ops.findSome? (resetMatch c) = some v) := by
  intro ops
  induction ops with
  | nil =>
    intro reduced rc df c v h
    exact Or.inl (by simpa [approxScan] using h)
  | cons op rest ih =>
    intro reduced rc df c v h
    rcases approxStep_cases reduced rc df op with ⟨hst, hskip⟩ |
      ⟨hop, hdf, hst⟩ | ⟨c0, v0, hop, hc0, hst⟩
    · simp only [approxScan, hst] at h
      split at h
      · exact Or.inl h
      · rcases ih reduced rc df c v h with hl | ⟨hcc, hfs⟩
        · exact Or.inl hl
        · refine Or.inr ⟨hcc, ?_⟩
          have hnone : resetMatch c op = none := by
            cases op with
            | reset c1 v1 =>
              have hct := hskip c1 v1 rfl
              have hne : ¬ (c1 = c) := fun he => by
                rw [he] at hct
                rw [hct] at hcc
                cases hcc
              simp [resetMatch, hne]
            | delayFuture => rfl
            | constraint _ _ _ _ => rfl
            | close => rfl
            | unsupported _ => rfl
          rw [List.findSome?_cons, hnone]
          exact hfs
    · subst hop
      simp only [approxScan, hst] at h
      split at h
      · rcases List.mem_append.mp h with h1 | h2
        · exact Or.inl h1
        · exact absurd (List.mem_singleton.mp h2) (by simp)
      · rcases ih (reduced ++ [DBMOp.delayFuture]) rc true c v h with
          hl | ⟨hcc, hfs⟩
        · rcases List.mem_append.mp hl with h1 | h2
          · exact Or.inl h1
          · exact absurd (List.mem_singleton.mp h2) (by simp)
        · refine Or.inr ⟨hcc, ?_⟩
          rw [List.findSome?_cons]
          exact hfs
    · subst hop
      simp only [approxScan, hst] at h
      split at h
      · rcases List.mem_append.mp h with h1 | h2
        · exact Or.inl h1
        · have h2 := List.mem_singleton.mp h2
          injection h2 with e1 e2
          subst e1
          subst e2
          refine Or.inr ⟨hc0, ?_⟩
          rw [List.findSome?_cons]
          simp [resetMatch]
      · rcases ih (reduced ++ [DBMOp.reset c0 v0]) (rc ++ [c0]) false c v h
          with hl | ⟨hcc, hfs⟩
        · rcases List.mem_append.mp hl with h1 | h2
          · exact Or.inl h1
          · have h2 := List.mem_singleton.mp h2
            injection h2 with e1 e2
            subst e1
            subst e2
            refine Or.inr ⟨hc0, ?_⟩
            rw [List.findSome?_cons]
            simp [resetMatch]
        · obtain ⟨hrc, hne⟩ := contains_append_singleton_false hcc
          refine Or.inr ⟨hrc, ?_⟩
          rw [List.findSome?_cons]
          have hnone : resetMatch c (DBMOp.reset c0 v0) = none := by
            simp [resetMatch, hne]
          rw [hnone]
          exact hfs

theorem approxScan_reset_unique (clocks : List String) :
    ∀ (ops reduced : List DBMOp) (rc : List String) (df : Bool) (c : String),
    (reduced.filter (DBMOp.isResetOf c)).length ≤ 1 →
    (rc.contains c = false →
      (reduced.filter (DBMOp.isResetOf c)).length = 0) →
    ((approxScan clocks ops reduced rc df).filter
      (DBMOp.isResetOf c)).length ≤ 1 := by
  intro ops
  induction ops with
  | nil =>
    intro reduced rc df c h1 h2
    simpa [approxScan] using h1
  | cons op rest ih =>
    intro reduced rc df c h1 h2
    rcases approxStep_cases reduced rc df op with ⟨hst, hskip⟩ |
      ⟨hop, hdf, hst⟩ | ⟨c0, v0, hop, hc0, hst⟩
    · simp only [approxScan, hst]
      split
      · exact h1
      · exact ih reduced rc df c h1 h2
    · subst hop
      have hfil : (reduced ++ [DBMOp.delayFuture]).filter (DBMOp.isResetOf c)
          = reduced.filter (DBMOp.isResetOf c) := by
        rw [List.filter_append]
        simp [DBMOp.isResetOf]
      simp only [approxScan, hst]
      split
      · rw [hfil]
        exact h1
      · exact ih _ rc true c (by rw [hfil]; exact h1)
          (fun hcc => by rw [hfil]; exact h2 hcc)
    · subst hop
      by_cases hceq : c0 = c
      · subst hceq
        have h0 := h2 hc0
        have hfil : ((reduced ++ [DBMOp.reset c0 v0]).filter
            (DBMOp.isResetOf c0)).length = 1 := by
          rw [List.filter_append, List.length_append, h0]
          simp [DBMOp.isResetOf]
        simp only [approxScan, hst]
        split
        · exact hfil.le
        · exact ih _ _ false c0 hfil.le
            (fun hcc => absurd rfl (contains_append_singleton_false hcc).2)
      · have hfil : (reduced ++ [DBMOp.reset c0 v0]).filter
            (DBMOp.isResetOf c) = reduced.filter (DBMOp.isResetOf c) := by
          rw [List.filter_append]
          simp [DBMOp.isResetOf, hceq]
        simp only [approxScan, hst]
        split
        · rw [hfil]
          exact h1
        · refine ih _ _ false c (by rw [hfil]; exact h1) (fun hcc => ?_)
          rw [hfil]
          exact h2 (contains_append_singleton_false hcc).1

theorem mem_of_full_capture {rc clocks : List String} (hnd : rc.Nodup)
    (hsub : ∀ x ∈ rc, x ∈ clocks) (hb : rc.length = clocks.length) :
    ∀ y ∈ clocks, y ∈ rc := by
  have hsp := List.subperm_of_subset hnd (fun x hx => hsub x hx)
  have hp := hsp.perm_of_length_le (le_of_eq hb.symm)
  intro y hy
  exact hp.mem_iff.mpr hy

theorem approxScan_complete (clocks : List String) :
    ∀ (ops reduced : List DBMOp) (rc : List String) (df : Bool),
    rc.Nodup → (∀ x ∈ rc, x ∈ clocks) →
    (∀ c v, DBMOp.reset c v ∈ ops → c ∈ clocks) →
    ∀ c v, DBMOp.reset c v ∈ ops →
      c ∈ rc ∨ ∃ w, DBMOp.reset c w ∈ approxScan clocks ops reduced rc df := by
  intro ops
  induction ops with
  | nil =>
    intro reduced rc df _ _ _ c v hm
    cases hm
  | cons op rest ih =>
    intro reduced rc df hnd hsub hops c v hm
    have hops' : ∀ c' v', DBMOp.reset c' v' ∈ rest → c' ∈ clocks :=
      fun c' v' h' => hops c' v' (List.mem_cons_of_mem op h')
    rcases approxStep_cases reduced rc df op with ⟨hst, hskip⟩ |
      ⟨hop, hdf, hst⟩ | ⟨c0, v0, hop, hc0, hst⟩
    · simp only [approxScan, hst]
      rcases List.mem_cons.mp hm with he | hrest
      · exact Or.inl (by simpa using hskip c v he.symm)
      · split
        · next hb =>
          exact Or.inl (mem_of_full_capture hnd hsub hb c (hops' c v hrest))
        · exact ih reduced rc df hnd hsub hops' c v hrest
    · subst hop
      simp only [approxScan, hst]
      rcases List.mem_cons.mp hm with he | hrest
      · cases he
      · split
        · next hb =>
          exact Or.inl (mem_of_full_capture hnd hsub hb c (hops' c v hrest))
        · exact ih _ rc true hnd hsub hops' c v hrest
    · subst hop
      have hc0mem : c0 ∈ clocks := hops c0 v0 (List.mem_cons_self _ _)
      have hc0notin : c0 ∉ rc := by simpa using hc0
      have hnd' : (rc ++ [c0]).Nodup := by
        simp [List.nodup_append, hnd, hc0notin]
      have hsub' : ∀ x ∈ rc ++ [c0], x ∈ clocks := by
        intro x hx
        rcases List.mem_append.mp hx with h1 | h2
        · exact hsub x h1
        · rw [List.mem_singleton.mp h2]
          exact hc0mem
      simp only [approxScan, hst]
      rcases List.mem_cons.mp hm with he | hrest
      · injection he with e1 e2
        subst e1
        refine Or.inr ?_
        split
        · exact ⟨v0, List.mem_append.mpr (Or.inr (List.mem_singleton.mpr rfl))⟩
        · obtain ⟨extra, hres, _⟩ :=
            approxScan_append clocks rest (reduced ++ [DBMOp.reset c v0])
              (rc ++ [c]) false
          refine ⟨v0, ?_⟩
          rw [hres]
          exact List.mem_append.mpr (Or.inl
            (List.mem_append.mpr (Or.inr (List.mem_singleton.mpr rfl))))
      · split
        · next hb =>
          have hcin := mem_of_full_capture hnd' hsub' hb c (hops' c v hrest)
          rcases List.mem_append.mp hcin with h1 | h2
          · exact Or.inl h1
          · rw [List.mem_singleton.mp h2]
            exact Or.inr ⟨v0, List.mem_append.mpr
              (Or.inr (List.mem_singleton.mpr rfl))⟩
        · rcases ih _ _ false hnd' hsub' hops' c v hrest with hin | hex
          · rcases List.mem_append.mp hin with h1 | h2
            · exact Or.inl h1
            · rw [List.mem_singleton.mp h2]
              refine Or.inr ⟨v0, ?_⟩
              obtain ⟨extra, hres, _⟩ :=
                approxScan_append clocks rest (reduced ++ [DBMOp.reset c0 v0])
                  (rc ++ [c0]) false
              rw [hres]
              exact List.mem_append.mpr (Or.inl
                (List.mem_append.mpr (Or.inr (List.mem_singleton.mpr rfl))))
          · exact Or.inr hex

/-- C3.  The sequence-based approximator returns a sub-sequence of the input
trace containing at most one reset per clock; every reset it keeps is the
most recent reset of that clock in the trace; when every reset in the trace
is over a listed clock, the most recent reset of every reset clock is kept;
and on the concrete trace of the specification it returns exactly
`[Reset(y,0), DelayFuture(), Reset(x,3), DelayFuture()]`. -/
theorem seq_approximator_keeps_most_recent_resets
    (seqApprox seq : List DBMOp) (clocks : List String) :
    (updateApproximationSequenceViaSeq seqApprox seq clocks).Sublist
      (seqApprox ++ seq) ∧
    (∀ c : String,
      ((updateApproximationSequenceViaSeq seqApprox seq clocks).filter
        (DBMOp.isResetOf c)).length ≤ 1) ∧
    (∀ (c : String) (v : Int),
      DBMOp.reset c v ∈ updateApproximationSequenceViaSeq seqApprox seq
          clocks →
      lastResetValue (seqApprox ++ seq) c = some v) ∧
    ((∀ (c : String) (v : Int),
        DBMOp.reset c v ∈ seqApprox ++ seq → c ∈ clocks) →
      ∀ (c : String) (v : Int), DBMOp.reset c v ∈ seqApprox ++ seq →
        ∃ w, DBMOp.reset c w ∈
            updateApproximationSequenceViaSeq seqApprox seq clocks ∧
          lastResetValue (seqApprox ++ seq) c = some w) ∧
    generateApproximationSequenceViaSeq
        [DBMOp.reset "x" 0, DBMOp.delayFuture, DBMOp.reset "y" 0,
          DBMOp.delayFuture, DBMOp.reset "x" 3, DBMOp.delayFuture]
        ["x", "y"]
      = [DBMOp.reset "y" 0, DBMOp.delayFuture, DBMOp.reset "x" 3,
          DBMOp.delayFuture] := by
  refine ⟨?_, ?_, ?_, ?_, by decide⟩
  · unfold updateApproximationSequenceViaSeq
    obtain ⟨extra, he, hs⟩ :=
      approxScan_append clocks (seqApprox ++ seq).reverse [] [] false
    rw [he, List.nil_append]
    have hrev := hs.reverse
    rwa [List.reverse_reverse] at hrev
  · intro c
    unfold updateApproximationSequenceViaSeq
    rw [List.filter_reverse, List.length_reverse]
    exact approxScan_reset_unique clocks _ [] [] false c (by simp)
      (fun _ => by simp)
  · intro c v hmem
    unfold updateApproximationSequenceViaSeq at hmem
    rw [List.mem_reverse] at hmem
    rcases approxScan_reset_mem clocks _ [] [] false c v hmem with h0 | ⟨_, hfs⟩
    · exact absurd h0 (List.not_mem_nil _)
    · exact hfs
  · intro hsubres c v hmem
    have hmemrev : DBMOp.reset c v ∈ (seqApprox ++ seq).reverse :=
      List.mem_reverse.mpr hmem
    have hopsclocks : ∀ c' v',
        DBMOp.reset c' v' ∈ (seqApprox ++ seq).reverse → c' ∈ clocks :=
      fun c' v' h => hsubres c' v' (List.mem_reverse.mp h)
    rcases approxScan_complete clocks (seqApprox ++ seq).reverse [] [] false
        List.nodup_nil (by simp) hopsclocks c v hmemrev with h0 | ⟨w, hw⟩
    · exact absurd h0 (List.not_mem_nil _)
    · refine ⟨w, ?_, ?_⟩
      · unfold updateApproximationSequenceViaSeq
        rw [List.mem_reverse]
        exact hw
      · rcases approxScan_reset_mem clocks _ [] [] false c w hw with
          h0 | ⟨_, hfs⟩
        · exact absurd h0 (List.not_mem_nil _)
        · exact hfs

/-- C3 witness: on the specification's concrete trace, the completeness part
of the approximator theorem yields a kept reset of `x` carrying the value of
the trace's most recent reset of `x`. -/
theorem seq_approximator_keeps_most_recent_resets_witness :
    ∃ w, DBMOp.reset "x" w ∈ updateApproximationSequenceViaSeq []
        [DBMOp.reset "x" 0, DBMOp.delayFuture, DBMOp.reset "y" 0,
          DBMOp.delayFuture, DBMOp.reset "x" 3, DBMOp.delayFuture]
        ["x", "y"] ∧
      lastResetValue ([] ++
        [DBMOp.reset "x" 0, DBMOp.delayFuture, DBMOp.reset "y" 0,
          DBMOp.delayFuture, DBMOp.reset "x" 3, DBMOp.delayFuture]) "x"
        = some w :=
  (seq_approximator_keeps_most_recent_resets []
    [DBMOp.reset "x" 0, DBMOp.delayFuture, DBMOp.reset "y" 0,
      DBMOp.delayFuture, DBMOp.reset "x" 3, DBMOp.delayFuture]
    ["x", "y"]).2.2.2.1
    (by
      intro c v h
      simp only [List.nil_append, List.mem_cons, List.not_mem_nil,
        or_false] at h
      rcases h with h | h | h | h | h | h <;> cases h <;> decide)
    "x" 0 (by decide)

theorem exists_mem_pyPermsF {α : Type} :
    ∀ (fuel : Nat) (l : List α), l.length ≤ fuel →
      ∃ p, p ∈ pyPermsF fuel l := by
  intro fuel
  induction fuel with
  | zero =>
    intro l h
    cases l with
    | nil => exact ⟨[], by simp [pyPermsF]⟩
    | cons x xs => simp at h
  | succ n ih =>
    intro l h
    cases l with
    | nil => exact ⟨[], by simp [pyPermsF]⟩
    | cons x xs =>
      obtain ⟨q, hq⟩ := ih xs (by simp only [List.length_cons] at h; omega)
      refine ⟨x :: q, ?_⟩
      rw [pyPermsF]
      apply List.mem_flatMap.mpr
      exact ⟨(x, xs), List.mem_cons_self _ _, List.mem_map_of_mem _ hq⟩

theorem exists_mem_pyPerms {α : Type} (l : List α) : ∃ p, p ∈ pyPerms l :=
  exists_mem_pyPermsF l.length l (le_refl _)

theorem rcsCycleFold_go_spec (fe : List ClockEdge) :
    ∀ (cands : List (List ClockRef)) (m : Int)
      (cur : Option (List ClockEdge × List ClockEdge)),
    (cands.foldl (rcsCycleFoldStep fe) (m, cur) = (m, cur) ∨
      ∃ p ∈ cands, cands.foldl (rcsCycleFoldStep fe) (m, cur)
        = (((cycleSplit fe p).1.length : Int), some (cycleSplit fe p))) ∧
    m ≤ (cands.foldl (rcsCycleFoldStep fe) (m, cur)).1 ∧
    ∀ q ∈ cands, ((cycleSplit fe q).1.length : Int)
      ≤ (cands.foldl (rcsCycleFoldStep fe) (m, cur)).1 := by
  intro cands
  induction cands with
  | nil =>
    intro m cur
    refine ⟨Or.inl rfl, le_refl m, ?_⟩
    intro q hq
    cases hq
  | cons x xs ih =>
    intro m cur
    by_cases hx : ((cycleSplit fe x).1.length : Int) > m
    · have hstep : rcsCycleFoldStep fe (m, cur) x
          = (((cycleSplit fe x).1.length : Int), some (cycleSplit fe x)) := by
        simp [rcsCycleFoldStep, hx]
      rw [List.foldl_cons, hstep]
      obtain ⟨hcase, hle, hmax⟩ :=
        ih ((cycleSplit fe x).1.length : Int) (some (cycleSplit fe x))
      refine ⟨?_, le_trans (le_of_lt hx) hle, ?_⟩
      · rcases hcase with hc | ⟨p, hp, hc⟩
        · exact Or.inr ⟨x, List.mem_cons_self _ _, hc⟩
        · exact Or.inr ⟨p, List.mem_cons_of_mem x hp, hc⟩
      · intro q hq
        rcases List.mem_cons.mp hq with rfl | hq'
        · exact hle
        · exact hmax q hq'
    · have hstep : rcsCycleFoldStep fe (m, cur) x = (m, cur) := by
        simp [rcsCycleFoldStep, hx]
      rw [List.foldl_cons, hstep]
      obtain ⟨hcase, hle, hmax⟩ := ih m cur
      refine ⟨?_, hle, ?_⟩
      · rcases hcase with hc | ⟨p, hp, hc⟩
        · exact Or.inl hc
        · exact Or.inr ⟨p, List.mem_cons_of_mem x hp, hc⟩
      · intro q hq
        rcases List.mem_cons.mp hq with rfl | hq'
        · exact le_trans (not_lt.mp hx) hle
        · exact hmax q hq'

theorem rcsCycleFold_max (fe : List ClockEdge) (cands : List (List ClockRef))
    (hne : cands ≠ []) :
    ∃ p ∈ cands,
      (rcsCycleFold fe cands).2.getD ([], []) = cycleSplit fe p ∧
      ∀ q ∈ cands, (cycleSplit fe q).1.length ≤ (cycleSplit fe p).1.length := by
  obtain ⟨hcase, _, hmax⟩ := rcsCycleFold_go_spec fe cands (-1) none
  rcases hcase with hc | ⟨p, hp, hc⟩
  · obtain ⟨x, hx⟩ := List.exists_mem_of_ne_nil cands hne
    have hcontra := hmax x hx
    rw [hc] at hcontra
    simp at hcontra
    omega
  · refine ⟨p, hp, ?_, ?_⟩
    · show (cands.foldl (rcsCycleFoldStep fe) (-1, none)).2.getD ([], [])
        = cycleSplit fe p
      rw [hc]
      rfl
    · intro q hq
      have hle := hmax q hq
      rw [hc] at hle
      simpa using hle

/-- C6.  In RCS, for a zero-equivalence class of at most
`node_bound_for_all_permutations = 5` members the intra-class cycle
candidates are all permutations of the class and the chosen cycle maximizes
the number of fixed edges over them; for a larger class exactly the single
oracle-sampled permutation is considered and its cycle is chosen (so the
computation stays bounded and terminates, as the witness evaluates for a
6-member class). -/
theorem rcs_intra_class_permutation_bound (src tgt : Dbm)
    (oracle : List ClockRef → List ClockRef) (eq : List ClockRef) :
    (eq.length ≤ nodeBoundForAllPermutations →
      rcsIntraCandidates oracle eq = pyPerms eq ∧
      ∃ p ∈ pyPerms eq,
        rcsChooseCycle (rcsFixedEdges src tgt) oracle eq
          = cycleSplit (rcsFixedEdges src tgt) p ∧
        ∀ q ∈ pyPerms eq,
          (cycleSplit (rcsFixedEdges src tgt) q).1.length ≤
            (cycleSplit (rcsFixedEdges src tgt) p).1.length) ∧
    (nodeBoundForAllPermutations < eq.length →
      rcsIntraCandidates oracle eq = [oracle eq] ∧
      rcsChooseCycle (rcsFixedEdges src tgt) oracle eq
        = cycleSplit (rcsFixedEdges src tgt) (oracle eq)) := by
  constructor
  · intro hle
    have hcand : rcsIntraCandidates oracle eq = pyPerms eq := by
      simp [rcsIntraCandidates, hle]
    refine ⟨hcand, ?_⟩
    obtain ⟨p0, hp0⟩ := exists_mem_pyPerms eq
    obtain ⟨p, hp, hchoice, hmax⟩ := rcsCycleFold_max (rcsFixedEdges src tgt)
      (pyPerms eq) (List.ne_nil_of_mem hp0)
    refine ⟨p, hp, ?_, hmax⟩
    rw [rcsChooseCycle, hcand]
    exact hchoice
  · intro hlt
    have hcand : rcsIntraCandidates oracle eq = [oracle eq] := by
      simp [rcsIntraCandidates, not_le.mpr hlt]
    refine ⟨hcand, ?_⟩
    obtain ⟨p, hp, hchoice, _⟩ := rcsCycleFold_max (rcsFixedEdges src tgt)
      [oracle eq] (by simp)
    rw [List.mem_singleton.mp hp] at hchoice
    rw [rcsChooseCycle, hcand]
    exact hchoice

/-- C6 witness: `dbm7` has a 6-member zero-equivalence class; the theorem
yields that only the single oracle permutation is considered there, and the
whole RCS generation on `dbm7` evaluates (terminates) with the expected
8 constraints plus one trailing `Close`. -/
theorem rcs_intra_class_permutation_bound_witness :
    eqBig ∈ getZeroEquivalenceClasses dbm7 ∧
    nodeBoundForAllPermutations < eqBig.length ∧
    rcsIntraCandidates id eqBig = [id eqBig] ∧
    rcsChooseCycle (rcsFixedEdges src7 dbm7) id eqBig
      = cycleSplit (rcsFixedEdges src7 dbm7) (id eqBig) ∧
    generateConstraintSequenceViaRcs src7 dbm7 id =
      [DBMOp.constraint (some "t(0)") (some "f") "<=" 1,
       DBMOp.constraint (some "f") (some "t(0)") "<=" 1,
       DBMOp.constraint (some "t(0)") (some "a") "<=" 0,
       DBMOp.constraint (some "a") (some "b") "<=" 0,
       DBMOp.constraint (some "b") (some "c") "<=" 0,
       DBMOp.constraint (some "c") (some "d") "<=" 0,
       DBMOp.constraint (some "d") (some "e") "<=" 0,
       DBMOp.constraint (some "e") (some "t(0)") "<=" 0,
       DBMOp.close] :=
  ⟨by decide, by decide,
    ((rcs_intra_class_permutation_bound src7 dbm7 id eqBig).2 (by decide)).1,
    ((rcs_intra_class_permutation_bound src7 dbm7 id eqBig).2 (by decide)).2,
    by decide⟩

end UppyylStateConstructor
